import Mathlib

/-!
Verification of the ITM byte-stream writer (`src/cortex-m/src/itm.rs`).

The writer transmits a byte buffer to a narrow trace port that accepts
8/16/32-bit writes and must be polled for readiness before each write.
We embed the Rust functions `write_words`, `write_aligned_impl`,
`write_all`, `write_aligned`, `write_str`, `Port::write_str` and
`write_fmt` as pure Lean functions producing an explicit event trace.

Modelling conventions:
* A byte buffer is a `List Nat` of its bytes (each intended `< 256`,
  stated as a hypothesis where a claim needs it) together with a base
  address `addr : Nat`; only `addr % 4` influences behaviour.
* The port (`Stim`, whose implementation is outside the given sources) is
  modelled from the spec as an external collaborator: `is_fifo_ready`
  consumes a schedule `List Bool` of readiness responses (an exhausted
  schedule answers `true`, i.e. the port is eventually ready so the
  busy-poll loop terminates), and each `write_u8/u16/u32` appends a write
  event.  Every port interaction, and every byte offset the writer reads
  from the buffer, is recorded in an `Event` trace in program order.
* The Cortex-M target is little-endian, so `ptr::read` of a `u16`/`u32`
  at offset `i` yields `b i + 256 * b (i+1) (+ ...)`.
* Rust slices `&buffer[start..]` are modelled as the pair
  `(buffer, start)`; pointer advancement becomes offset arithmetic.
* Straight-line code with mutable locals is unfolded into nested `if`s
  (SSA style); each branch corresponds to one path through the source.
-/

/-- One observable step of the writer: a readiness poll (recording the
response observed), a byte read from the buffer at an absolute offset,
or an 8/16/32-bit write carrying its value. -/
inductive Event where
  | poll (ready : Bool)
  | read (off : Nat)
  | w8 (v : Nat)
  | w16 (v : Nat)
  | w32 (v : Nat)
deriving DecidableEq

/-- Is this event a write to the port? -/
def Event.isWrite : Event → Bool
  | .w8 _ => true
  | .w16 _ => true
  | .w32 _ => true
  | _ => false

/-- Is this event a read from the source buffer? -/
def Event.isRead : Event → Bool
  | .read _ => true
  | _ => false

/-- The width in bytes of a write event (0 for polls and reads). -/
def Event.width : Event → Nat
  | .w8 _ => 1
  | .w16 _ => 2
  | .w32 _ => 4
  | _ => 0

/-- The constituent bytes of a write event, in little-endian order —
the decomposition a mock port performs to reconstruct the byte stream. -/
def Event.toBytes : Event → List Nat
  | .w8 v => [v % 256]
  | .w16 v => [v % 256, v / 256 % 256]
  | .w32 v => [v % 256, v / 256 % 256, v / 65536 % 256, v / 16777216 % 256]
  | _ => []

/-- The subsequence of write events of a trace. -/
def writesOf (es : List Event) : List Event := es.filter Event.isWrite

/-- The port-visible part of a trace: polls and writes (reads are
interactions with the source buffer, not the port). -/
def portOf (es : List Event) : List Event := es.filter (fun e => !e.isRead)

/-- The byte offsets read from the buffer, in order. -/
def readsOf (es : List Event) : List Nat :=
  es.filterMap (fun e => match e with | .read i => some i | _ => none)

/-- The bytes carried by the writes of a trace, concatenated in order. -/
def wbytes : List Event → List Nat
  | [] => []
  | e :: es => e.toBytes ++ wbytes es

/-- Modelled from the spec: the busy-poll loop `while !stim.is_fifo_ready() {}`
run against a port whose successive readiness responses are the schedule;
an exhausted schedule reports ready.  Returns the polls performed (each
recorded with the response observed) and the remaining schedule. -/
def waitReady : List Bool → List Event × List Bool
  | [] => ([Event.poll true], [])
  | true :: rest => ([Event.poll true], rest)
  | false :: rest =>
    let r := waitReady rest
    (Event.poll false :: r.1, r.2)

/-- `*ptr` at byte offset `i`: the read event and the byte value. -/
def read_u8 (buf : List Nat) (i : Nat) : List Event × Nat :=
  ([Event.read i], buf.getD i 0)

/-- `ptr::read(ptr as *const u16)` at byte offset `i` (little-endian). -/
def read_u16 (buf : List Nat) (i : Nat) : List Event × Nat :=
  ([Event.read i, Event.read (i + 1)],
   buf.getD i 0 + 256 * buf.getD (i + 1) 0)

/-- `ptr::read(p)` of a `u32` at byte offset `i` (little-endian). -/
def read_u32 (buf : List Nat) (i : Nat) : List Event × Nat :=
  ([Event.read i, Event.read (i + 1), Event.read (i + 2), Event.read (i + 3)],
   buf.getD i 0 + 256 * buf.getD (i + 1) 0 + 65536 * buf.getD (i + 2) 0 +
     16777216 * buf.getD (i + 3) 0)

/-- `write_words(stim, bytes)`: for each of `n` words, busy-poll, read the
word at byte offset `p` (the word slice starts at `p` in the backing
buffer) and write it; `p` advances by 4 per iteration (`p.offset(1)` on a
`*const u32`). -/
def write_words : List Bool → List Nat → Nat → Nat → List Event × List Bool
  | sched, _, _, 0 => ([], sched)
  | sched, buf, p, n + 1 =>
    let w := waitReady sched
    let r := read_u32 buf p
    let rest := write_words w.2 buf (p + 4) n
    (w.1 ++ r.1 ++ Event.w32 r.2 :: rest.1, rest.2)

/-- `write_aligned_impl(port, buffer)` on the slice `&buffer[start..]`
(whose base is 4-byte aligned).  `len` is the slice length,
`split = len & !0b11` its whole-word part, `left = len & 0b11 ∈ {0,..,3}`
the tail; the straight-line tail code (`if left > 1 { u16; left -= 2 };
if left == 1 { u8 }`) is unfolded into its four paths. -/
def write_aligned_impl (sched : List Bool) (buffer : List Nat) (start : Nat) :
    List Event × List Bool :=
  let len := buffer.length - start
  if len = 0 then ([], sched)
  else
    let split := len - len % 4
    let ww := write_words sched buffer start (split >>> 2)
    let left := len % 4
    let p := start + split
    if 1 < left then
      let w := waitReady ww.2
      let r := read_u16 buffer p
      if left - 2 = 1 then
        let w2 := waitReady w.2
        let r2 := read_u8 buffer (p + 2)
        (ww.1 ++ w.1 ++ r.1 ++ Event.w16 r.2 :: (w2.1 ++ r2.1 ++ [Event.w8 r2.2]),
         w2.2)
      else
        (ww.1 ++ w.1 ++ r.1 ++ [Event.w16 r.2], w.2)
    else
      if left = 1 then
        let w := waitReady ww.2
        let r := read_u8 buffer p
        (ww.1 ++ w.1 ++ r.1 ++ [Event.w8 r.2], w.2)
      else
        (ww.1, ww.2)

/-- `write_all(port, buffer)` for a buffer whose base address is `addr`.
The mutable `ptr`/`len` pair of the source is modelled as `addr + k` /
`buffer.length - k` for the current offset `k`; the two leading
corrections (odd-address byte, then halfword at `ptr % 4 == 2`) are
unfolded into nested `if`s, after which the remaining slice
`&buffer[k..]` is handed to `write_aligned_impl`. -/
def write_all (sched : List Bool) (addr : Nat) (buffer : List Nat) :
    List Event × List Bool :=
  let len := buffer.length
  if len = 0 then ([], sched)
  else
    if addr % 2 = 1 then
      -- leading odd byte: write buffer[0], ptr := addr + 1, len := len - 1
      let w := waitReady sched
      let r := read_u8 buffer 0
      if (addr + 1) % 4 = 2 then
        if 1 < len - 1 then
          let w2 := waitReady w.2
          let r2 := read_u16 buffer 1
          let a := write_aligned_impl w2.2 buffer 3
          (w.1 ++ r.1 ++ Event.w8 r.2 :: (w2.1 ++ r2.1 ++ Event.w16 r2.2 :: a.1),
           a.2)
        else
          if len - 1 = 1 then
            let w2 := waitReady w.2
            let r2 := read_u8 buffer 1
            (w.1 ++ r.1 ++ Event.w8 r.2 :: (w2.1 ++ r2.1 ++ [Event.w8 r2.2]),
             w2.2)
          else
            (w.1 ++ r.1 ++ [Event.w8 r.2], w.2)
      else
        let a := write_aligned_impl w.2 buffer 1
        (w.1 ++ r.1 ++ Event.w8 r.2 :: a.1, a.2)
    else
      if addr % 4 = 2 then
        if 1 < len then
          let w := waitReady sched
          let r := read_u16 buffer 0
          let a := write_aligned_impl w.2 buffer 2
          (w.1 ++ r.1 ++ Event.w16 r.2 :: a.1, a.2)
        else
          if len = 1 then
            let w := waitReady sched
            let r := read_u8 buffer 0
            (w.1 ++ r.1 ++ [Event.w8 r.2], w.2)
          else
            ([], sched)
      else
        write_aligned_impl sched buffer 0

/-- `write_aligned(port, buffer)`: the `Aligned` wrapper guarantees the
base address is a multiple of 4, and the function calls
`write_aligned_impl` on the whole buffer directly. -/
def write_aligned (sched : List Bool) (buffer : List Nat) :
    List Event × List Bool :=
  write_aligned_impl sched buffer 0

/-- `write_str(port, string)`: forwards the string's bytes to `write_all`. -/
def write_str (sched : List Bool) (addr : Nat) (s : List Nat) :
    List Event × List Bool :=
  write_all sched addr s

/-- `<Port as fmt::Write>::write_str`: calls `write_all` on the bytes and
returns `Ok(())` unconditionally. -/
def Port.write_str (sched : List Bool) (addr : Nat) (s : List Nat) :
    (List Event × List Bool) × Except Unit Unit :=
  (write_all sched addr s, Except.ok ())

/-- Modelled from the spec: the formatting machinery behind
`fmt::Write::write_fmt` (in `core`, outside the given sources) renders the
arguments into string fragments and feeds each to `Port::write_str`,
short-circuiting with `Err` if a fragment write fails.  A fragment is a
base address together with its bytes. -/
def fmtWrite (sched : List Bool) (frags : List (Nat × List Nat)) :
    (List Event × List Bool) × Except Unit Unit :=
  match frags with
  | [] => (([], sched), Except.ok ())
  | (a, s) :: rest =>
    let r := Port.write_str sched a s
    match r.2 with
    | Except.error e => (r.1, Except.error e)
    | Except.ok _ =>
      let r2 := fmtWrite r.1.2 rest
      ((r.1.1 ++ r2.1.1, r2.1.2), r2.2)

/-- `write_fmt(port, args)`: `Port(port).write_fmt(args).ok()` — the
`fmt::Result` is discarded by `.ok()`, so the caller sees only the trace. -/
def write_fmt (sched : List Bool) (frags : List (Nat × List Nat)) :
    List Event × List Bool :=
  (fmtWrite sched frags).1

/-- The byte offset, within the write sequence `ws`, at which the payload
of the `k`-th write starts: the total width of the preceding writes. -/
def offAt (ws : List Event) (k : Nat) : Nat := ((ws.take k).map Event.width).sum

/-- Little-endian positional correctness of a write sequence `ws` against
buffer `buf` starting at byte offset `base`: the `k`-th write carries the
little-endian combination of the buffer bytes at offset `base + offAt ws k`. -/
def LEAt (buf : List Nat) (base : Nat) (ws : List Event) : Prop :=
  ∀ k (h : k < ws.length),
    (∀ v, ws.get ⟨k, h⟩ = Event.w8 v → v = buf.getD (base + offAt ws k) 0) ∧
    (∀ v, ws.get ⟨k, h⟩ = Event.w16 v →
      v = buf.getD (base + offAt ws k) 0 +
          256 * buf.getD (base + offAt ws k + 1) 0) ∧
    (∀ v, ws.get ⟨k, h⟩ = Event.w32 v →
      v = buf.getD (base + offAt ws k) 0 +
          256 * buf.getD (base + offAt ws k + 1) 0 +
          65536 * buf.getD (base + offAt ws k + 2) 0 +
          16777216 * buf.getD (base + offAt ws k + 3) 0)

/-- A write sequence is minimal when it splits into: at most one leading
8-bit write, at most one leading 16-bit write, a block of 32-bit writes,
at most one trailing 16-bit write and at most one trailing 8-bit write. -/
def MinimalShape (ws : List Event) : Prop :=
  ∃ a b m c d,
    ws = a ++ b ++ m ++ c ++ d ∧
    a.length ≤ 1 ∧ (∀ e ∈ a, ∃ v, e = Event.w8 v) ∧
    b.length ≤ 1 ∧ (∀ e ∈ b, ∃ v, e = Event.w16 v) ∧
    (∀ e ∈ m, ∃ v, e = Event.w32 v) ∧
    c.length ≤ 1 ∧ (∀ e ∈ c, ∃ v, e = Event.w16 v) ∧
    d.length ≤ 1 ∧ (∀ e ∈ d, ∃ v, e = Event.w8 v)

/-- A port trace is well polled when it is a sequence of segments, each
consisting of `k` polls answered not-ready, one poll answered ready, and
then exactly one write: readiness is re-checked before every write, and
the writer polls exactly `k + 1` times when the port reports not-ready
`k` times before that write. -/
inductive WellPolled : List Event → Prop where
  | nil : WellPolled []
  | seg (k : Nat) (e : Event) (he : e.isWrite = true) {rest : List Event} :
      WellPolled rest →
      WellPolled (List.replicate k (Event.poll false) ++ Event.poll true :: e :: rest)

/- ### Projection lemmas -/

theorem wbytes_append (a b : List Event) : wbytes (a ++ b) = wbytes a ++ wbytes b := by
  induction a with
  | nil => rfl
  | cons e es ih => simp [wbytes, ih]

theorem writesOf_append (a b : List Event) :
    writesOf (a ++ b) = writesOf a ++ writesOf b := List.filter_append a b

theorem readsOf_append (a b : List Event) :
    readsOf (a ++ b) = readsOf a ++ readsOf b := List.filterMap_append a b _

theorem portOf_append (a b : List Event) :
    portOf (a ++ b) = portOf a ++ portOf b := List.filter_append a b

theorem writesOf_cons (e : Event) (es : List Event) :
    writesOf (e :: es) = if e.isWrite then e :: writesOf es else writesOf es := by
  simp [writesOf, List.filter_cons]

theorem readsOf_cons (e : Event) (es : List Event) :
    readsOf (e :: es) =
      (match e with | .read i => [i] | _ => []) ++ readsOf es := by
  cases e <;> simp [readsOf, List.filterMap_cons]

theorem portOf_cons (e : Event) (es : List Event) :
    portOf (e :: es) = if e.isRead then portOf es else e :: portOf es := by
  by_cases h : e.isRead <;> simp [portOf, List.filter_cons, h]

theorem wbytes_cons (e : Event) (es : List Event) :
    wbytes (e :: es) = e.toBytes ++ wbytes es := rfl

/- ### `waitReady` produces a block of polls -/

theorem waitReady_shape (s : List Bool) :
    ∃ k, (waitReady s).1 = List.replicate k (Event.poll false) ++ [Event.poll true] := by
  induction s with
  | nil => exact ⟨0, rfl⟩
  | cons b r ih =>
    cases b
    · obtain ⟨k, hk⟩ := ih
      exact ⟨k + 1, by simp [waitReady, hk, List.replicate_succ]⟩
    · exact ⟨0, rfl⟩

theorem writesOf_replicate_poll (k : Nat) (b : Bool) :
    writesOf (List.replicate k (Event.poll b)) = [] := by
  induction k with
  | zero => rfl
  | succ n ih => simp [List.replicate_succ, writesOf_cons, Event.isWrite, ih]

theorem writesOf_waitReady (s : List Bool) : writesOf (waitReady s).1 = [] := by
  obtain ⟨k, hk⟩ := waitReady_shape s
  simp [hk, writesOf_append, writesOf_replicate_poll, writesOf_cons, Event.isWrite, writesOf]

theorem readsOf_replicate_poll (k : Nat) (b : Bool) :
    readsOf (List.replicate k (Event.poll b)) = [] := by
  induction k with
  | zero => rfl
  | succ n ih => simp [List.replicate_succ, readsOf_cons, ih]

theorem readsOf_waitReady (s : List Bool) : readsOf (waitReady s).1 = [] := by
  obtain ⟨k, hk⟩ := waitReady_shape s
  simp [hk, readsOf_append, readsOf_replicate_poll, readsOf_cons, readsOf]

theorem wbytes_replicate_poll (k : Nat) (b : Bool) :
    wbytes (List.replicate k (Event.poll b)) = [] := by
  induction k with
  | zero => rfl
  | succ n ih => simp [List.replicate_succ, wbytes_cons, Event.toBytes, ih]

theorem wbytes_waitReady (s : List Bool) : wbytes (waitReady s).1 = [] := by
  obtain ⟨k, hk⟩ := waitReady_shape s
  simp [hk, wbytes_append, wbytes_replicate_poll, wbytes_cons, Event.toBytes, wbytes]

theorem portOf_waitReady (s : List Bool) : portOf (waitReady s).1 = (waitReady s).1 := by
  induction s with
  | nil => rfl
  | cons b r ih =>
    cases b
    · simp [waitReady, portOf_cons, Event.isRead, ih]
    · rfl

/- ### Byte-level values -/

theorem getD_lt (buf : List Nat) (h : ∀ b ∈ buf, b < 256) (i : Nat) :
    buf.getD i 0 < 256 := by
  by_cases hi : i < buf.length
  · rw [List.getD_eq_getElem buf 0 hi]
    exact h _ (buf.getElem_mem hi)
  · rw [List.getD_eq_default buf 0 (by omega)]
    omega

theorem toBytes_w8 (buf : List Nat) (h : ∀ b ∈ buf, b < 256) (i : Nat) :
    (Event.w8 (read_u8 buf i).2).toBytes = [buf.getD i 0] := by
  have h0 := getD_lt buf h i
  show [buf.getD i 0 % 256] = _
  rw [Nat.mod_eq_of_lt h0]

theorem toBytes_w16 (buf : List Nat) (h : ∀ b ∈ buf, b < 256) (i : Nat) :
    (Event.w16 (read_u16 buf i).2).toBytes = [buf.getD i 0, buf.getD (i + 1) 0] := by
  have h0 := getD_lt buf h i
  have h1 := getD_lt buf h (i + 1)
  show [(buf.getD i 0 + 256 * buf.getD (i + 1) 0) % 256,
        (buf.getD i 0 + 256 * buf.getD (i + 1) 0) / 256 % 256] = _
  have e1 : (buf.getD i 0 + 256 * buf.getD (i + 1) 0) % 256 = buf.getD i 0 := by omega
  have e2 : (buf.getD i 0 + 256 * buf.getD (i + 1) 0) / 256 % 256 = buf.getD (i + 1) 0 := by
    omega
  rw [e1, e2]

theorem toBytes_w32 (buf : List Nat) (h : ∀ b ∈ buf, b < 256) (i : Nat) :
    (Event.w32 (read_u32 buf i).2).toBytes =
      [buf.getD i 0, buf.getD (i + 1) 0, buf.getD (i + 2) 0, buf.getD (i + 3) 0] := by
  have h0 := getD_lt buf h i
  have h1 := getD_lt buf h (i + 1)
  have h2 := getD_lt buf h (i + 2)
  have h3 := getD_lt buf h (i + 3)
  show [(buf.getD i 0 + 256 * buf.getD (i + 1) 0 + 65536 * buf.getD (i + 2) 0 +
          16777216 * buf.getD (i + 3) 0) % 256,
        (buf.getD i 0 + 256 * buf.getD (i + 1) 0 + 65536 * buf.getD (i + 2) 0 +
          16777216 * buf.getD (i + 3) 0) / 256 % 256,
        (buf.getD i 0 + 256 * buf.getD (i + 1) 0 + 65536 * buf.getD (i + 2) 0 +
          16777216 * buf.getD (i + 3) 0) / 65536 % 256,
        (buf.getD i 0 + 256 * buf.getD (i + 1) 0 + 65536 * buf.getD (i + 2) 0 +
          16777216 * buf.getD (i + 3) 0) / 16777216 % 256] = _
  have e1 : (buf.getD i 0 + 256 * buf.getD (i + 1) 0 + 65536 * buf.getD (i + 2) 0 +
      16777216 * buf.getD (i + 3) 0) % 256 = buf.getD i 0 := by omega
  have e2 : (buf.getD i 0 + 256 * buf.getD (i + 1) 0 + 65536 * buf.getD (i + 2) 0 +
      16777216 * buf.getD (i + 3) 0) / 256 % 256 = buf.getD (i + 1) 0 := by omega
  have e3 : (buf.getD i 0 + 256 * buf.getD (i + 1) 0 + 65536 * buf.getD (i + 2) 0 +
      16777216 * buf.getD (i + 3) 0) / 65536 % 256 = buf.getD (i + 2) 0 := by omega
  have e4 : (buf.getD i 0 + 256 * buf.getD (i + 1) 0 + 65536 * buf.getD (i + 2) 0 +
      16777216 * buf.getD (i + 3) 0) / 16777216 % 256 = buf.getD (i + 3) 0 := by omega
  rw [e1, e2, e3, e4]

/- ### `write_words` characterization -/

theorem writesOf_write_words (buf : List Nat) :
    ∀ (n : Nat) (sched : List Bool) (p : Nat),
      writesOf (write_words sched buf p n).1 =
        (List.range n).map (fun j => Event.w32 (read_u32 buf (p + 4 * j)).2) := by
  intro n
  induction n with
  | zero => intro sched p; rfl
  | succ n ih =>
    intro sched p
    have step : writesOf (write_words sched buf p (n + 1)).1 =
        Event.w32 (read_u32 buf p).2 ::
          writesOf (write_words (waitReady sched).2 buf (p + 4) n).1 := by
      simp [write_words, writesOf_append, writesOf_waitReady, writesOf_cons,
        read_u32, Event.isWrite]
    rw [step, ih]
    rw [List.range_succ_eq_map, List.map_cons, List.map_map]
    congr 1
    simp only [List.map_inj_left, Function.comp]
    intro a _
    have e : p + 4 + 4 * a = p + 4 * (a + 1) := by ring
    rw [e]

theorem wbytes_write_words (buf : List Nat) (h : ∀ b ∈ buf, b < 256) :
    ∀ (n : Nat) (sched : List Bool) (p : Nat),
      wbytes (write_words sched buf p n).1 =
        (List.range (4 * n)).map (fun i => buf.getD (p + i) 0) := by
  intro n
  induction n with
  | zero => intro sched p; rfl
  | succ n ih =>
    intro sched p
    have step : wbytes (write_words sched buf p (n + 1)).1 =
        (Event.w32 (read_u32 buf p).2).toBytes ++
          wbytes (write_words (waitReady sched).2 buf (p + 4) n).1 := by
      simp [write_words, wbytes_append, wbytes_waitReady, wbytes_cons, read_u32,
        Event.toBytes]
    rw [step, ih, toBytes_w32 buf h p]
    have e4 : 4 * (n + 1) = 4 + 4 * n := by ring
    rw [e4, List.range_add, List.map_append, List.map_map]
    have h1 : (List.range 4).map (fun i => buf.getD (p + i) 0) =
        [buf.getD p 0, buf.getD (p + 1) 0, buf.getD (p + 2) 0, buf.getD (p + 3) 0] := by
      simp [List.range_succ]
    have h2 : (List.range (4 * n)).map ((fun i => buf.getD (p + i) 0) ∘ (fun x => 4 + x)) =
        (List.range (4 * n)).map (fun i => buf.getD (p + 4 + i) 0) := by
      simp only [List.map_inj_left, Function.comp]
      intro a _
      have e : p + (4 + a) = p + 4 + a := by ring
      rw [e]
    rw [h1, h2]

theorem readsOf_write_words_lt (buf : List Nat) :
    ∀ (n : Nat) (sched : List Bool) (p : Nat), p + 4 * n ≤ buf.length →
      ∀ i ∈ readsOf (write_words sched buf p n).1, i < buf.length := by
  intro n
  induction n with
  | zero =>
    intro sched p _ i hi
    simp [write_words, readsOf] at hi
  | succ n ih =>
    intro sched p hp i hi
    have step : readsOf (write_words sched buf p (n + 1)).1 =
        [p, p + 1, p + 2, p + 3] ++
          readsOf (write_words (waitReady sched).2 buf (p + 4) n).1 := by
      simp [write_words, readsOf_append, readsOf_waitReady, readsOf_cons, read_u32]
    rw [step] at hi
    rcases List.mem_append.mp hi with h1 | h2
    · simp only [List.mem_cons, List.not_mem_nil, or_false] at h1
      omega
    · exact ih (waitReady sched).2 (p + 4) (by omega) i h2

/- ### Trace-level characterization of `write_aligned_impl` by `len % 4` -/

theorem impl_mod0 (sched : List Bool) (buf : List Nat) (start n : Nat)
    (h : buf.length - start = 4 * n) :
    write_aligned_impl sched buf start = write_words sched buf start n := by
  by_cases hn : n = 0
  · subst hn
    unfold write_aligned_impl
    simp only [h, if_pos rfl]
    rfl
  · have h0 : ¬(buf.length - start = 0) := by omega
    have hm : (buf.length - start) % 4 = 0 := by omega
    have hsr : (buf.length - start) >>> 2 = n := by
      rw [Nat.shiftRight_eq_div_pow]
      omega
    unfold write_aligned_impl
    simp only [hm, if_neg h0, Nat.sub_zero, hsr]
    simp

theorem impl_mod1 (sched : List Bool) (buf : List Nat) (start n : Nat)
    (h : buf.length - start = 4 * n + 1) :
    write_aligned_impl sched buf start =
      ((write_words sched buf start n).1 ++
        (waitReady (write_words sched buf start n).2).1 ++
        [Event.read (start + 4 * n), Event.w8 (buf.getD (start + 4 * n) 0)],
       (waitReady (write_words sched buf start n).2).2) := by
  have h0 : ¬(buf.length - start = 0) := by omega
  have hm : (buf.length - start) % 4 = 1 := by omega
  have hs : buf.length - start - 1 = 4 * n := by omega
  have hsr : (4 * n) >>> 2 = n := by
    rw [Nat.shiftRight_eq_div_pow]
    omega
  unfold write_aligned_impl
  simp only [hm, hs, hsr, if_neg h0, read_u8]
  simp [List.append_assoc]

theorem impl_mod2 (sched : List Bool) (buf : List Nat) (start n : Nat)
    (h : buf.length - start = 4 * n + 2) :
    write_aligned_impl sched buf start =
      ((write_words sched buf start n).1 ++
        (waitReady (write_words sched buf start n).2).1 ++
        [Event.read (start + 4 * n), Event.read (start + 4 * n + 1),
         Event.w16 (buf.getD (start + 4 * n) 0 + 256 * buf.getD (start + 4 * n + 1) 0)],
       (waitReady (write_words sched buf start n).2).2) := by
  have h0 : ¬(buf.length - start = 0) := by omega
  have hm : (buf.length - start) % 4 = 2 := by omega
  have hs : buf.length - start - 2 = 4 * n := by omega
  have hsr : (4 * n) >>> 2 = n := by
    rw [Nat.shiftRight_eq_div_pow]
    omega
  unfold write_aligned_impl
  simp only [hm, hs, hsr, if_neg h0, read_u16]
  simp [List.append_assoc]

theorem impl_mod3 (sched : List Bool) (buf : List Nat) (start n : Nat)
    (h : buf.length - start = 4 * n + 3) :
    write_aligned_impl sched buf start =
      ((write_words sched buf start n).1 ++
        (waitReady (write_words sched buf start n).2).1 ++
        Event.read (start + 4 * n) :: Event.read (start + 4 * n + 1) ::
        Event.w16 (buf.getD (start + 4 * n) 0 + 256 * buf.getD (start + 4 * n + 1) 0) ::
        ((waitReady (waitReady (write_words sched buf start n).2).2).1 ++
          [Event.read (start + 4 * n + 2), Event.w8 (buf.getD (start + 4 * n + 2) 0)]),
       (waitReady (waitReady (write_words sched buf start n).2).2).2) := by
  have h0 : ¬(buf.length - start = 0) := by omega
  have hm : (buf.length - start) % 4 = 3 := by omega
  have hs : buf.length - start - 3 = 4 * n := by omega
  have hsr : (4 * n) >>> 2 = n := by
    rw [Nat.shiftRight_eq_div_pow]
    omega
  unfold write_aligned_impl
  simp only [hm, hs, hsr, if_neg h0, read_u16, read_u8]
  simp [List.append_assoc]

/- ### Trace-level characterization of `write_all` by `addr % 4` -/

theorem write_all_len0 (sched : List Bool) (addr : Nat) (buf : List Nat)
    (h : buf.length = 0) : write_all sched addr buf = ([], sched) := by
  unfold write_all
  simp only [if_pos h]

theorem write_all_aligned (sched : List Bool) (addr : Nat) (buf : List Nat)
    (h : addr % 4 = 0) : write_all sched addr buf = write_aligned_impl sched buf 0 := by
  have h2 : ¬(addr % 2 = 1) := by omega
  have h4 : ¬(addr % 4 = 2) := by omega
  by_cases hl : buf.length = 0
  · rw [write_all_len0 sched addr buf hl]
    unfold write_aligned_impl
    simp only [Nat.sub_zero, if_pos hl]
  · unfold write_all
    simp only [if_neg hl, if_neg h2, if_neg h4]

theorem write_all_mod1_big (sched : List Bool) (addr : Nat) (buf : List Nat)
    (h : addr % 4 = 1) (hl : 2 < buf.length) :
    write_all sched addr buf =
      ((waitReady sched).1 ++ Event.read 0 :: Event.w8 (buf.getD 0 0) ::
         ((waitReady (waitReady sched).2).1 ++ Event.read 1 :: Event.read 2 ::
           Event.w16 (buf.getD 1 0 + 256 * buf.getD 2 0) ::
           (write_aligned_impl (waitReady (waitReady sched).2).2 buf 3).1),
       (write_aligned_impl (waitReady (waitReady sched).2).2 buf 3).2) := by
  have h2 : addr % 2 = 1 := by omega
  have h4 : (addr + 1) % 4 = 2 := by omega
  have hl0 : ¬(buf.length = 0) := by omega
  have hl1 : 1 < buf.length - 1 := by omega
  unfold write_all
  simp only [if_neg hl0, if_pos h2, if_pos h4, if_pos hl1, read_u8, read_u16]
  simp [List.append_assoc]

theorem write_all_mod1_len2 (sched : List Bool) (addr : Nat) (buf : List Nat)
    (h : addr % 4 = 1) (hl : buf.length = 2) :
    write_all sched addr buf =
      ((waitReady sched).1 ++ Event.read 0 :: Event.w8 (buf.getD 0 0) ::
         ((waitReady (waitReady sched).2).1 ++
           [Event.read 1, Event.w8 (buf.getD 1 0)]),
       (waitReady (waitReady sched).2).2) := by
  have h2 : addr % 2 = 1 := by omega
  have h4 : (addr + 1) % 4 = 2 := by omega
  have hl0 : ¬(buf.length = 0) := by omega
  have hl1 : ¬(1 < buf.length - 1) := by omega
  have hl2 : buf.length - 1 = 1 := by omega
  unfold write_all
  simp only [if_neg hl0, if_pos h2, if_pos h4, if_neg hl1, if_pos hl2, read_u8]
  simp [List.append_assoc]

theorem write_all_mod1_len1 (sched : List Bool) (addr : Nat) (buf : List Nat)
    (h : addr % 4 = 1) (hl : buf.length = 1) :
    write_all sched addr buf =
      ((waitReady sched).1 ++ [Event.read 0, Event.w8 (buf.getD 0 0)],
       (waitReady sched).2) := by
  have h2 : addr % 2 = 1 := by omega
  have h4 : (addr + 1) % 4 = 2 := by omega
  have hl0 : ¬(buf.length = 0) := by omega
  have hl1 : ¬(1 < buf.length - 1) := by omega
  have hl2 : ¬(buf.length - 1 = 1) := by omega
  unfold write_all
  simp only [if_neg hl0, if_pos h2, if_pos h4, if_neg hl1, if_neg hl2, read_u8]
  simp [List.append_assoc]

theorem write_all_mod2_big (sched : List Bool) (addr : Nat) (buf : List Nat)
    (h : addr % 4 = 2) (hl : 1 < buf.length) :
    write_all sched addr buf =
      ((waitReady sched).1 ++ Event.read 0 :: Event.read 1 ::
         Event.w16 (buf.getD 0 0 + 256 * buf.getD 1 0) ::
         (write_aligned_impl (waitReady sched).2 buf 2).1,
       (write_aligned_impl (waitReady sched).2 buf 2).2) := by
  have h2 : ¬(addr % 2 = 1) := by omega
  have hl0 : ¬(buf.length = 0) := by omega
  unfold write_all
  simp only [if_neg hl0, if_neg h2, if_pos h, if_pos hl, read_u16]
  simp [List.append_assoc]

theorem write_all_mod2_len1 (sched : List Bool) (addr : Nat) (buf : List Nat)
    (h : addr % 4 = 2) (hl : buf.length = 1) :
    write_all sched addr buf =
      ((waitReady sched).1 ++ [Event.read 0, Event.w8 (buf.getD 0 0)],
       (waitReady sched).2) := by
  have h2 : ¬(addr % 2 = 1) := by omega
  have hl0 : ¬(buf.length = 0) := by omega
  have hl1 : ¬(1 < buf.length) := by omega
  unfold write_all
  simp only [if_neg hl0, if_neg h2, if_pos h, if_neg hl1, if_pos hl, read_u8]
  simp [List.append_assoc]

theorem write_all_mod3 (sched : List Bool) (addr : Nat) (buf : List Nat)
    (h : addr % 4 = 3) (hl : ¬(buf.length = 0)) :
    write_all sched addr buf =
      ((waitReady sched).1 ++ Event.read 0 :: Event.w8 (buf.getD 0 0) ::
         (write_aligned_impl (waitReady sched).2 buf 1).1,
       (write_aligned_impl (waitReady sched).2 buf 1).2) := by
  have h2 : addr % 2 = 1 := by omega
  have h4 : ¬((addr + 1) % 4 = 2) := by omega
  unfold write_all
  simp only [if_neg hl, if_pos h2, if_neg h4, read_u8]
  simp [List.append_assoc]

/- ### Expanded byte-decomposition lemmas -/

theorem toBytes_w8x (buf : List Nat) (h : ∀ b ∈ buf, b < 256) (i : Nat) :
    (Event.w8 (buf.getD i 0)).toBytes = [buf.getD i 0] := toBytes_w8 buf h i

theorem toBytes_w16x (buf : List Nat) (h : ∀ b ∈ buf, b < 256) (i : Nat) :
    (Event.w16 (buf.getD i 0 + 256 * buf.getD (i + 1) 0)).toBytes =
      [buf.getD i 0, buf.getD (i + 1) 0] := toBytes_w16 buf h i

theorem toBytes_w32x (buf : List Nat) (h : ∀ b ∈ buf, b < 256) (i : Nat) :
    (Event.w32 (buf.getD i 0 + 256 * buf.getD (i + 1) 0 + 65536 * buf.getD (i + 2) 0 +
        16777216 * buf.getD (i + 3) 0)).toBytes =
      [buf.getD i 0, buf.getD (i + 1) 0, buf.getD (i + 2) 0, buf.getD (i + 3) 0] :=
  toBytes_w32 buf h i

/- ### Write-sequence characterization of `write_aligned_impl` -/

theorem writesOf_nil : writesOf [] = [] := rfl

theorem writesOf_impl_mod0 (sched : List Bool) (buf : List Nat) (start n : Nat)
    (h : buf.length - start = 4 * n) :
    writesOf (write_aligned_impl sched buf start).1 =
      (List.range n).map (fun j => Event.w32 (read_u32 buf (start + 4 * j)).2) := by
  rw [impl_mod0 sched buf start n h, writesOf_write_words]

theorem writesOf_impl_mod1 (sched : List Bool) (buf : List Nat) (start n : Nat)
    (h : buf.length - start = 4 * n + 1) :
    writesOf (write_aligned_impl sched buf start).1 =
      (List.range n).map (fun j => Event.w32 (read_u32 buf (start + 4 * j)).2) ++
        [Event.w8 (buf.getD (start + 4 * n) 0)] := by
  rw [impl_mod1 sched buf start n h]
  simp only [writesOf_append, writesOf_waitReady, writesOf_write_words buf n sched start,
    writesOf_cons, writesOf_nil, Event.isWrite, List.nil_append, List.append_nil,
    List.append_assoc, List.cons_append, if_true, Bool.false_eq_true, if_false]

theorem writesOf_impl_mod2 (sched : List Bool) (buf : List Nat) (start n : Nat)
    (h : buf.length - start = 4 * n + 2) :
    writesOf (write_aligned_impl sched buf start).1 =
      (List.range n).map (fun j => Event.w32 (read_u32 buf (start + 4 * j)).2) ++
        [Event.w16 (buf.getD (start + 4 * n) 0 + 256 * buf.getD (start + 4 * n + 1) 0)] := by
  rw [impl_mod2 sched buf start n h]
  simp only [writesOf_append, writesOf_waitReady, writesOf_write_words buf n sched start,
    writesOf_cons, writesOf_nil, Event.isWrite, List.nil_append, List.append_nil,
    List.append_assoc, List.cons_append, if_true, Bool.false_eq_true, if_false]

theorem writesOf_impl_mod3 (sched : List Bool) (buf : List Nat) (start n : Nat)
    (h : buf.length - start = 4 * n + 3) :
    writesOf (write_aligned_impl sched buf start).1 =
      (List.range n).map (fun j => Event.w32 (read_u32 buf (start + 4 * j)).2) ++
        [Event.w16 (buf.getD (start + 4 * n) 0 + 256 * buf.getD (start + 4 * n + 1) 0),
         Event.w8 (buf.getD (start + 4 * n + 2) 0)] := by
  rw [impl_mod3 sched buf start n h]
  simp only [writesOf_append, writesOf_waitReady, writesOf_write_words buf n sched start,
    writesOf_cons, writesOf_nil, Event.isWrite, List.nil_append, List.append_nil,
    List.append_assoc, List.cons_append, if_true, Bool.false_eq_true, if_false]

/- ### Byte-stream characterization of `write_aligned_impl` -/

theorem wbytes_impl (sched : List Bool) (buf : List Nat) (start : Nat)
    (h : ∀ b ∈ buf, b < 256) :
    wbytes (write_aligned_impl sched buf start).1 =
      (List.range (buf.length - start)).map (fun i => buf.getD (start + i) 0) := by
  obtain ⟨n, r, hr, hL⟩ : ∃ n r, r < 4 ∧ buf.length - start = 4 * n + r :=
    ⟨(buf.length - start) / 4, (buf.length - start) % 4, by omega, by omega⟩
  interval_cases r
  · rw [impl_mod0 sched buf start n (by omega)]
    rw [wbytes_write_words buf h n sched start]
    rw [show buf.length - start = 4 * n from by omega]
  · rw [impl_mod1 sched buf start n (by omega)]
    have hb := getD_lt buf h (start + 4 * n)
    have e : buf.getD (start + 4 * n) 0 % 256 = buf.getD (start + 4 * n) 0 :=
      Nat.mod_eq_of_lt hb
    rw [hL, List.range_succ, List.map_append]
    simp only [wbytes_append, wbytes_cons, wbytes, wbytes_waitReady, Event.toBytes,
      wbytes_write_words buf h n sched start, e, List.map_cons, List.map_nil,
      List.append_nil, List.nil_append, List.append_assoc]
  · rw [impl_mod2 sched buf start n (by omega)]
    rw [hL, show 4 * n + 2 = (4 * n + 1) + 1 from rfl, List.range_succ, List.range_succ,
      List.map_append, List.map_append]
    simp only [wbytes_append, wbytes_cons, wbytes, wbytes_waitReady, Event.toBytes,
      wbytes_write_words buf h n sched start, List.map_cons, List.map_nil,
      List.append_nil, List.nil_append, List.append_assoc, List.cons_append]
    have hba := getD_lt buf h (start + 4 * n)
    have hbb := getD_lt buf h (start + 4 * n + 1)
    have ea : (buf.getD (start + 4 * n) 0 + 256 * buf.getD (start + 4 * n + 1) 0) % 256 =
        buf.getD (start + 4 * n) 0 := by omega
    have eb : (buf.getD (start + 4 * n) 0 + 256 * buf.getD (start + 4 * n + 1) 0) / 256 % 256 =
        buf.getD (start + 4 * n + 1) 0 := by omega
    rw [ea, eb, show start + (4 * n + 1) = start + 4 * n + 1 from by ring]
  · rw [impl_mod3 sched buf start n (by omega)]
    rw [hL, show 4 * n + 3 = ((4 * n + 1) + 1) + 1 from rfl, List.range_succ,
      List.range_succ, List.range_succ, List.map_append, List.map_append,
      List.map_append]
    have hb := getD_lt buf h (start + 4 * n + 2)
    have e : buf.getD (start + 4 * n + 2) 0 % 256 = buf.getD (start + 4 * n + 2) 0 :=
      Nat.mod_eq_of_lt hb
    simp only [wbytes_append, wbytes_cons, wbytes, wbytes_waitReady, Event.toBytes, e,
      wbytes_write_words buf h n sched start, List.map_cons, List.map_nil,
      List.append_nil, List.nil_append, List.append_assoc, List.cons_append]
    have hba := getD_lt buf h (start + 4 * n)
    have hbb := getD_lt buf h (start + 4 * n + 1)
    have ea : (buf.getD (start + 4 * n) 0 + 256 * buf.getD (start + 4 * n + 1) 0) % 256 =
        buf.getD (start + 4 * n) 0 := by omega
    have eb : (buf.getD (start + 4 * n) 0 + 256 * buf.getD (start + 4 * n + 1) 0) / 256 % 256 =
        buf.getD (start + 4 * n + 1) 0 := by omega
    rw [ea, eb, show start + (4 * n + 1) = start + 4 * n + 1 from by ring,
      show start + (4 * n + 1 + 1) = start + 4 * n + 2 from by ring]

theorem map_getD_range (l : List Nat) :
    (List.range l.length).map (fun i => l.getD i 0) = l := by
  apply List.ext_getElem
  · simp
  · intro i h1 h2
    simp only [List.getElem_map, List.getElem_range]
    exact List.getD_eq_getElem l 0 h2

theorem write_all_wbytes (sched : List Bool) (addr : Nat) (buf : List Nat)
    (h : ∀ b ∈ buf, b < 256) :
    wbytes (write_all sched addr buf).1 = buf := by
  have e0 : buf.getD 0 0 % 256 = buf.getD 0 0 := Nat.mod_eq_of_lt (getD_lt buf h 0)
  have e1 : buf.getD 1 0 % 256 = buf.getD 1 0 := Nat.mod_eq_of_lt (getD_lt buf h 1)
  by_cases hl : buf.length = 0
  · rw [write_all_len0 sched addr buf hl, List.length_eq_zero.mp hl]
    rfl
  · have h4 : addr % 4 = 0 ∨ addr % 4 = 1 ∨ addr % 4 = 2 ∨ addr % 4 = 3 := by omega
    rcases h4 with h4 | h4 | h4 | h4
    · rw [write_all_aligned sched addr buf h4, wbytes_impl sched buf 0 h]
      simp only [Nat.sub_zero, Nat.zero_add]
      exact map_getD_range buf
    · by_cases hl1 : buf.length = 1
      · rw [write_all_mod1_len1 sched addr buf h4 hl1]
        conv_rhs => rw [← map_getD_range buf, hl1]
        simp only [wbytes_append, wbytes_cons, wbytes, wbytes_waitReady, Event.toBytes,
          e0, List.append_nil, List.nil_append]
        simp [List.range_succ]
      · by_cases hl2 : buf.length = 2
        · rw [write_all_mod1_len2 sched addr buf h4 hl2]
          conv_rhs => rw [← map_getD_range buf, hl2]
          simp only [wbytes_append, wbytes_cons, wbytes, wbytes_waitReady, Event.toBytes,
            e0, e1, List.append_nil, List.nil_append]
          simp [List.range_succ]
        · have hbig : 2 < buf.length := by omega
          rw [write_all_mod1_big sched addr buf h4 hbig]
          have h1b := getD_lt buf h 1
          have h2b := getD_lt buf h 2
          have ea : (buf.getD 1 0 + 256 * buf.getD 2 0) % 256 = buf.getD 1 0 := by omega
          have eb : (buf.getD 1 0 + 256 * buf.getD 2 0) / 256 % 256 = buf.getD 2 0 := by
            omega
          conv_rhs => rw [← map_getD_range buf,
            show buf.length = 3 + (buf.length - 3) from by omega,
            List.range_add, List.map_append, List.map_map]
          simp only [wbytes_append, wbytes_cons, wbytes, wbytes_waitReady, Event.toBytes,
            e0, ea, eb,
            wbytes_impl (waitReady (waitReady sched).2).2 buf 3 h,
            List.append_nil, List.nil_append, List.append_assoc]
          simp [List.range_succ, Function.comp]
    · by_cases hl1 : buf.length = 1
      · rw [write_all_mod2_len1 sched addr buf h4 hl1]
        conv_rhs => rw [← map_getD_range buf, hl1]
        simp only [wbytes_append, wbytes_cons, wbytes, wbytes_waitReady, Event.toBytes,
          e0, List.append_nil, List.nil_append]
        simp [List.range_succ]
      · have hbig : 1 < buf.length := by omega
        rw [write_all_mod2_big sched addr buf h4 hbig]
        have h0b := getD_lt buf h 0
        have h1b := getD_lt buf h 1
        have ea : (buf.getD 0 0 + 256 * buf.getD 1 0) % 256 = buf.getD 0 0 := by omega
        have eb : (buf.getD 0 0 + 256 * buf.getD 1 0) / 256 % 256 = buf.getD 1 0 := by omega
        conv_rhs => rw [← map_getD_range buf,
          show buf.length = 2 + (buf.length - 2) from by omega,
          List.range_add, List.map_append, List.map_map]
        simp only [wbytes_append, wbytes_cons, wbytes, wbytes_waitReady, Event.toBytes,
          ea, eb, wbytes_impl (waitReady sched).2 buf 2 h,
          List.append_nil, List.nil_append, List.append_assoc]
        simp [List.range_succ, Function.comp]
    · rw [write_all_mod3 sched addr buf h4 hl]
      conv_rhs => rw [← map_getD_range buf,
        show buf.length = 1 + (buf.length - 1) from by omega,
        List.range_add, List.map_append, List.map_map]
      simp only [wbytes_append, wbytes_cons, wbytes, wbytes_waitReady, Event.toBytes,
        e0, wbytes_impl (waitReady sched).2 buf 1 h,
        List.append_nil, List.nil_append, List.append_assoc]
      simp [List.range_succ, Function.comp]

/- ### Claim theorems: C1, C5, C6, C7 -/

/-- C1: for every byte buffer, base-address alignment and readiness
schedule, decomposing each emitted 8/16/32-bit write back into its
constituent bytes, in the order written, reconstructs exactly the buffer:
every byte is emitted exactly once, in order, and none is skipped. -/
theorem c1_byte_stream_exact (sched : List Bool) (addr : Nat) (buf : List Nat)
    (h : ∀ b ∈ buf, b < 256) :
    wbytes (write_all sched addr buf).1 = buf :=
  write_all_wbytes sched addr buf h

theorem c1_byte_stream_exact_witness :
    (∀ b ∈ [72, 101, 108, 108, 111], b < 256) ∧
      wbytes (write_all [false, true] 3 [72, 101, 108, 108, 111]).1 =
        [72, 101, 108, 108, 111] :=
  ⟨by decide, c1_byte_stream_exact [false, true] 3 [72, 101, 108, 108, 111] (by decide)⟩

/-- C5: every entry point called on a zero-length buffer or empty string
(or an empty formatting request) performs no polls and no writes: the
event trace is empty and the port's readiness schedule is untouched. -/
theorem c5_zero_length_noop (sched : List Bool) (addr : Nat) :
    write_all sched addr [] = ([], sched) ∧
    write_aligned sched [] = ([], sched) ∧
    write_str sched addr [] = ([], sched) ∧
    write_fmt sched [] = ([], sched) ∧
    write_fmt sched [(addr, [])] = ([], sched) := by
  refine ⟨?_, ?_, ?_, ?_, ?_⟩ <;>
    simp [write_all, write_aligned, write_aligned_impl, write_str, write_fmt,
      fmtWrite, Port.write_str]

/-- C6: on a 4-byte-aligned base address, `write_all` produces exactly the
same trace (polls, reads and writes) and final port state as
`write_aligned`: the aligned entry point is a pure optimization. -/
theorem c6_aligned_entry_equiv (sched : List Bool) (addr : Nat) (buf : List Nat)
    (h : addr % 4 = 0) :
    write_all sched addr buf = write_aligned sched buf :=
  write_all_aligned sched addr buf h

theorem c6_aligned_entry_equiv_witness :
    8 % 4 = 0 ∧ write_all [false] 8 [1, 2, 3, 4, 5] = write_aligned [false] [1, 2, 3, 4, 5] :=
  ⟨by decide, c6_aligned_entry_equiv [false] 8 [1, 2, 3, 4, 5] (by decide)⟩

theorem fmtWrite_ok : ∀ (frags : List (Nat × List Nat)) (sched : List Bool),
    (fmtWrite sched frags).2 = Except.ok () := by
  intro frags
  induction frags with
  | nil => intro sched; rfl
  | cons f rest ih =>
    intro sched
    obtain ⟨a, s⟩ := f
    simp [fmtWrite, Port.write_str, ih]

/-- C7: the text path always reports success: `Port::write_str` returns
`Ok(())` for every input, and the formatting driver's result is `Ok` for
every fragment sequence, so `write_fmt` (which additionally discards the
result with `.ok()`) never propagates a failure. -/
theorem c7_text_path_always_ok (sched : List Bool) (addr : Nat) (s : List Nat)
    (frags : List (Nat × List Nat)) :
    (Port.write_str sched addr s).2 = Except.ok () ∧
    (fmtWrite sched frags).2 = Except.ok () :=
  ⟨rfl, fmtWrite_ok frags sched⟩

/- ### Write sequences of `write_all`, case by case -/

theorem writesOf_all_1big (sched : List Bool) (addr : Nat) (buf : List Nat)
    (h : addr % 4 = 1) (hl : 2 < buf.length) :
    writesOf (write_all sched addr buf).1 =
      Event.w8 (buf.getD 0 0) :: Event.w16 (buf.getD 1 0 + 256 * buf.getD 2 0) ::
        writesOf (write_aligned_impl (waitReady (waitReady sched).2).2 buf 3).1 := by
  rw [write_all_mod1_big sched addr buf h hl]
  simp only [writesOf_append, writesOf_waitReady, writesOf_cons, writesOf_nil,
    Event.isWrite, List.nil_append, if_true, Bool.false_eq_true, if_false]

theorem writesOf_all_1len2 (sched : List Bool) (addr : Nat) (buf : List Nat)
    (h : addr % 4 = 1) (hl : buf.length = 2) :
    writesOf (write_all sched addr buf).1 =
      [Event.w8 (buf.getD 0 0), Event.w8 (buf.getD 1 0)] := by
  rw [write_all_mod1_len2 sched addr buf h hl]
  simp only [writesOf_append, writesOf_waitReady, writesOf_cons, writesOf_nil,
    Event.isWrite, List.nil_append, if_true, Bool.false_eq_true, if_false]

theorem writesOf_all_1len1 (sched : List Bool) (addr : Nat) (buf : List Nat)
    (h : addr % 4 = 1) (hl : buf.length = 1) :
    writesOf (write_all sched addr buf).1 = [Event.w8 (buf.getD 0 0)] := by
  rw [write_all_mod1_len1 sched addr buf h hl]
  simp only [writesOf_append, writesOf_waitReady, writesOf_cons, writesOf_nil,
    Event.isWrite, List.nil_append, if_true, Bool.false_eq_true, if_false]

theorem writesOf_all_2big (sched : List Bool) (addr : Nat) (buf : List Nat)
    (h : addr % 4 = 2) (hl : 1 < buf.length) :
    writesOf (write_all sched addr buf).1 =
      Event.w16 (buf.getD 0 0 + 256 * buf.getD 1 0) ::
        writesOf (write_aligned_impl (waitReady sched).2 buf 2).1 := by
  rw [write_all_mod2_big sched addr buf h hl]
  simp only [writesOf_append, writesOf_waitReady, writesOf_cons, writesOf_nil,
    Event.isWrite, List.nil_append, if_true, Bool.false_eq_true, if_false]

theorem writesOf_all_2len1 (sched : List Bool) (addr : Nat) (buf : List Nat)
    (h : addr % 4 = 2) (hl : buf.length = 1) :
    writesOf (write_all sched addr buf).1 = [Event.w8 (buf.getD 0 0)] := by
  rw [write_all_mod2_len1 sched addr buf h hl]
  simp only [writesOf_append, writesOf_waitReady, writesOf_cons, writesOf_nil,
    Event.isWrite, List.nil_append, if_true, Bool.false_eq_true, if_false]

theorem writesOf_all_3 (sched : List Bool) (addr : Nat) (buf : List Nat)
    (h : addr % 4 = 3) (hl : ¬(buf.length = 0)) :
    writesOf (write_all sched addr buf).1 =
      Event.w8 (buf.getD 0 0) ::
        writesOf (write_aligned_impl (waitReady sched).2 buf 1).1 := by
  rw [write_all_mod3 sched addr buf h hl]
  simp only [writesOf_append, writesOf_waitReady, writesOf_cons, writesOf_nil,
    Event.isWrite, List.nil_append, if_true, Bool.false_eq_true, if_false]

/- ### C10: the write sequence ignores the readiness schedule -/

theorem writesOf_impl_indep (s1 s2 : List Bool) (buf : List Nat) (start : Nat) :
    writesOf (write_aligned_impl s1 buf start).1 =
      writesOf (write_aligned_impl s2 buf start).1 := by
  obtain ⟨n, r, hr, hL⟩ : ∃ n r, r < 4 ∧ buf.length - start = 4 * n + r :=
    ⟨(buf.length - start) / 4, (buf.length - start) % 4, by omega, by omega⟩
  interval_cases r
  · rw [writesOf_impl_mod0 s1 buf start n (by omega),
      writesOf_impl_mod0 s2 buf start n (by omega)]
  · rw [writesOf_impl_mod1 s1 buf start n (by omega),
      writesOf_impl_mod1 s2 buf start n (by omega)]
  · rw [writesOf_impl_mod2 s1 buf start n (by omega),
      writesOf_impl_mod2 s2 buf start n (by omega)]
  · rw [writesOf_impl_mod3 s1 buf start n (by omega),
      writesOf_impl_mod3 s2 buf start n (by omega)]

/-- C10: the widths and values of the emitted writes, in order, are a
deterministic function of the buffer contents and the base address's
residue mod 4 alone: any two runs with different readiness schedules and
different (but congruent mod 4) base addresses produce identical write
sequences. -/
theorem c10_writes_deterministic (s1 s2 : List Bool) (a1 a2 : Nat) (buf : List Nat)
    (h : a1 % 4 = a2 % 4) :
    writesOf (write_all s1 a1 buf).1 = writesOf (write_all s2 a2 buf).1 := by
  by_cases hl : buf.length = 0
  · rw [write_all_len0 s1 a1 buf hl, write_all_len0 s2 a2 buf hl]
  · have h4 : a1 % 4 = 0 ∨ a1 % 4 = 1 ∨ a1 % 4 = 2 ∨ a1 % 4 = 3 := by omega
    rcases h4 with h4 | h4 | h4 | h4
    · rw [write_all_aligned s1 a1 buf h4, write_all_aligned s2 a2 buf (by omega)]
      exact writesOf_impl_indep s1 s2 buf 0
    · by_cases hl1 : buf.length = 1
      · rw [writesOf_all_1len1 s1 a1 buf h4 hl1, writesOf_all_1len1 s2 a2 buf (by omega) hl1]
      · by_cases hl2 : buf.length = 2
        · rw [writesOf_all_1len2 s1 a1 buf h4 hl2,
            writesOf_all_1len2 s2 a2 buf (by omega) hl2]
        · rw [writesOf_all_1big s1 a1 buf h4 (by omega),
            writesOf_all_1big s2 a2 buf (by omega) (by omega),
            writesOf_impl_indep (waitReady (waitReady s1).2).2
              (waitReady (waitReady s2).2).2 buf 3]
    · by_cases hl1 : buf.length = 1
      · rw [writesOf_all_2len1 s1 a1 buf h4 hl1, writesOf_all_2len1 s2 a2 buf (by omega) hl1]
      · rw [writesOf_all_2big s1 a1 buf h4 (by omega),
          writesOf_all_2big s2 a2 buf (by omega) (by omega),
          writesOf_impl_indep (waitReady s1).2 (waitReady s2).2 buf 2]
    · rw [writesOf_all_3 s1 a1 buf h4 hl, writesOf_all_3 s2 a2 buf (by omega) hl,
        writesOf_impl_indep (waitReady s1).2 (waitReady s2).2 buf 1]

theorem c10_writes_deterministic_witness :
    (1 : Nat) % 4 = 5 % 4 ∧
      writesOf (write_all [] 1 [9, 8, 7, 6]).1 =
        writesOf (write_all [false, false, true] 5 [9, 8, 7, 6]).1 :=
  ⟨by decide, c10_writes_deterministic [] [false, false, true] 1 5 [9, 8, 7, 6] (by decide)⟩

/-- C3: for a base address ≡ 1 mod 4 and a 14-byte buffer, the writer
emits exactly: one 8-bit write of byte 0, one 16-bit write of bytes 1–2,
two 32-bit writes of bytes 3–6 and 7–10, one 16-bit write of bytes 11–12
and one 8-bit write of byte 13, in that order. -/
theorem c3_odd_addr_len14 (sched : List Bool) (addr : Nat) (buf : List Nat)
    (h : addr % 4 = 1) (h14 : buf.length = 14) :
    writesOf (write_all sched addr buf).1 =
      [Event.w8 (buf.getD 0 0),
       Event.w16 (buf.getD 1 0 + 256 * buf.getD 2 0),
       Event.w32 (buf.getD 3 0 + 256 * buf.getD 4 0 + 65536 * buf.getD 5 0 +
         16777216 * buf.getD 6 0),
       Event.w32 (buf.getD 7 0 + 256 * buf.getD 8 0 + 65536 * buf.getD 9 0 +
         16777216 * buf.getD 10 0),
       Event.w16 (buf.getD 11 0 + 256 * buf.getD 12 0),
       Event.w8 (buf.getD 13 0)] := by
  rw [writesOf_all_1big sched addr buf h (by omega)]
  rw [writesOf_impl_mod3 (waitReady (waitReady sched).2).2 buf 3 2 (by omega)]
  norm_num [List.range_succ, read_u32]

theorem c3_odd_addr_len14_witness :
    (1 : Nat) % 4 = 1 ∧
      ([72, 101, 108, 108, 111, 44, 32, 119, 111, 114, 108, 100, 33, 10] : List Nat).length
        = 14 ∧
      writesOf (write_all [false, true] 1
          [72, 101, 108, 108, 111, 44, 32, 119, 111, 114, 108, 100, 33, 10]).1 =
        [Event.w8 72, Event.w16 (101 + 256 * 108), Event.w32 (108 + 256 * 111 +
            65536 * 44 + 16777216 * 32), Event.w32 (119 + 256 * 111 + 65536 * 114 +
            16777216 * 108), Event.w16 (100 + 256 * 33), Event.w8 10] :=
  ⟨by decide, by decide,
    by
      rw [c3_odd_addr_len14 [false, true] 1
        [72, 101, 108, 108, 111, 44, 32, 119, 111, 114, 108, 100, 33, 10]
        (by decide) (by decide)]
      decide⟩

/- ### C2: minimality of the write shape -/

theorem impl_shape (sched : List Bool) (buf : List Nat) (start : Nat) :
    ∃ m c d, writesOf (write_aligned_impl sched buf start).1 = m ++ c ++ d ∧
      (∀ e ∈ m, ∃ v, e = Event.w32 v) ∧
      c.length ≤ 1 ∧ (∀ e ∈ c, ∃ v, e = Event.w16 v) ∧
      d.length ≤ 1 ∧ (∀ e ∈ d, ∃ v, e = Event.w8 v) := by
  obtain ⟨n, r, hr, hL⟩ : ∃ n r, r < 4 ∧ buf.length - start = 4 * n + r :=
    ⟨(buf.length - start) / 4, (buf.length - start) % 4, by omega, by omega⟩
  have hm : ∀ e ∈ (List.range n).map (fun j => Event.w32 (read_u32 buf (start + 4 * j)).2),
      ∃ v, e = Event.w32 v := by
    intro e he
    obtain ⟨j, _, rfl⟩ := List.mem_map.mp he
    exact ⟨_, rfl⟩
  interval_cases r
  · refine ⟨(List.range n).map (fun j => Event.w32 (read_u32 buf (start + 4 * j)).2),
      [], [], ?_, hm, by simp, by simp, by simp, by simp⟩
    rw [writesOf_impl_mod0 sched buf start n (by omega)]
    simp
  · refine ⟨(List.range n).map (fun j => Event.w32 (read_u32 buf (start + 4 * j)).2),
      [], [Event.w8 (buf.getD (start + 4 * n) 0)], ?_, hm, by simp, by simp, by simp,
      by simp⟩
    rw [writesOf_impl_mod1 sched buf start n (by omega)]
    simp
  · refine ⟨(List.range n).map (fun j => Event.w32 (read_u32 buf (start + 4 * j)).2),
      [Event.w16 (buf.getD (start + 4 * n) 0 + 256 * buf.getD (start + 4 * n + 1) 0)],
      [], ?_, hm, by simp, by simp, by simp, by simp⟩
    rw [writesOf_impl_mod2 sched buf start n (by omega)]
    simp
  · refine ⟨(List.range n).map (fun j => Event.w32 (read_u32 buf (start + 4 * j)).2),
      [Event.w16 (buf.getD (start + 4 * n) 0 + 256 * buf.getD (start + 4 * n + 1) 0)],
      [Event.w8 (buf.getD (start + 4 * n + 2) 0)], ?_, hm, by simp, by simp, by simp,
      by simp⟩
    rw [writesOf_impl_mod3 sched buf start n (by omega)]
    simp

/-- C2: for every buffer, base alignment and readiness schedule, the
emitted write sequence splits as: at most one 8-bit and then at most one
16-bit leading correction, a block of 32-bit writes, and at most one
16-bit and then at most one 8-bit trailing correction — every byte not in
a correction is covered by a 32-bit write. -/
theorem c2_minimal_shape (sched : List Bool) (addr : Nat) (buf : List Nat) :
    MinimalShape (writesOf (write_all sched addr buf).1) := by
  by_cases hl : buf.length = 0
  · rw [write_all_len0 sched addr buf hl]
    exact ⟨[], [], [], [], [], by simp [writesOf], by simp, by simp, by simp, by simp,
      by simp, by simp, by simp, by simp, by simp⟩
  · have h4 : addr % 4 = 0 ∨ addr % 4 = 1 ∨ addr % 4 = 2 ∨ addr % 4 = 3 := by omega
    rcases h4 with h4 | h4 | h4 | h4
    · obtain ⟨m, c, d, heq, hm, hc1, hc2, hd1, hd2⟩ := impl_shape sched buf 0
      rw [write_all_aligned sched addr buf h4, heq]
      exact ⟨[], [], m, c, d, by simp, by simp, by simp, by simp, by simp,
        hm, hc1, hc2, hd1, hd2⟩
    · by_cases hl1 : buf.length = 1
      · rw [writesOf_all_1len1 sched addr buf h4 hl1]
        exact ⟨[Event.w8 (buf.getD 0 0)], [], [], [], [], by simp, by simp, by simp,
          by simp, by simp, by simp, by simp, by simp, by simp, by simp⟩
      · by_cases hl2 : buf.length = 2
        · rw [writesOf_all_1len2 sched addr buf h4 hl2]
          exact ⟨[Event.w8 (buf.getD 0 0)], [], [], [], [Event.w8 (buf.getD 1 0)],
            by simp, by simp, by simp, by simp, by simp, by simp, by simp, by simp,
            by simp, by simp⟩
        · obtain ⟨m, c, d, heq, hm, hc1, hc2, hd1, hd2⟩ :=
            impl_shape (waitReady (waitReady sched).2).2 buf 3
          rw [writesOf_all_1big sched addr buf h4 (by omega), heq]
          exact ⟨[Event.w8 (buf.getD 0 0)],
            [Event.w16 (buf.getD 1 0 + 256 * buf.getD 2 0)], m, c, d,
            by simp, by simp, by simp, by simp, by simp, hm, hc1, hc2, hd1, hd2⟩
    · by_cases hl1 : buf.length = 1
      · rw [writesOf_all_2len1 sched addr buf h4 hl1]
        exact ⟨[Event.w8 (buf.getD 0 0)], [], [], [], [], by simp, by simp, by simp,
          by simp, by simp, by simp, by simp, by simp, by simp, by simp⟩
      · obtain ⟨m, c, d, heq, hm, hc1, hc2, hd1, hd2⟩ :=
          impl_shape (waitReady sched).2 buf 2
        rw [writesOf_all_2big sched addr buf h4 (by omega), heq]
        exact ⟨[], [Event.w16 (buf.getD 0 0 + 256 * buf.getD 1 0)], m, c, d,
          by simp, by simp, by simp, by simp, by simp, hm, hc1, hc2, hd1, hd2⟩
    · obtain ⟨m, c, d, heq, hm, hc1, hc2, hd1, hd2⟩ :=
        impl_shape (waitReady sched).2 buf 1
      rw [writesOf_all_3 sched addr buf h4 hl, heq]
      exact ⟨[Event.w8 (buf.getD 0 0)], [], m, c, d,
        by simp, by simp, by simp, by simp, by simp, hm, hc1, hc2, hd1, hd2⟩

/- ### C4: polling discipline -/

theorem portOf_nil : portOf [] = [] := rfl

theorem readsOf_nil : readsOf [] = [] := rfl

theorem WellPolled_append {A B : List Event} (ha : WellPolled A) (hb : WellPolled B) :
    WellPolled (A ++ B) := by
  induction ha with
  | nil => exact hb
  | seg k e he hrest ih =>
    rw [List.append_assoc, List.cons_append, List.cons_append]
    exact WellPolled.seg k e he ih

theorem WellPolled_wait_seg (s : List Bool) (e : Event) (he : e.isWrite = true)
    {rest : List Event} (hr : WellPolled rest) :
    WellPolled ((waitReady s).1 ++ e :: rest) := by
  obtain ⟨k, hk⟩ := waitReady_shape s
  rw [hk, List.append_assoc, List.singleton_append]
  exact WellPolled.seg k e he hr

theorem portOf_write_words (buf : List Nat) :
    ∀ (n : Nat) (sched : List Bool) (p : Nat),
      WellPolled (portOf (write_words sched buf p n).1) := by
  intro n
  induction n with
  | zero => intro sched p; exact WellPolled.nil
  | succ n ih =>
    intro sched p
    have step : portOf (write_words sched buf p (n + 1)).1 =
        (waitReady sched).1 ++ Event.w32 (read_u32 buf p).2 ::
          portOf (write_words (waitReady sched).2 buf (p + 4) n).1 := by
      simp [write_words, portOf_append, portOf_waitReady, portOf_cons, Event.isRead,
        read_u32]
    rw [step]
    exact WellPolled_wait_seg _ _ (by rfl) (ih _ _)

theorem portOf_impl (sched : List Bool) (buf : List Nat) (start : Nat) :
    WellPolled (portOf (write_aligned_impl sched buf start).1) := by
  obtain ⟨n, r, hr, hL⟩ : ∃ n r, r < 4 ∧ buf.length - start = 4 * n + r :=
    ⟨(buf.length - start) / 4, (buf.length - start) % 4, by omega, by omega⟩
  interval_cases r
  · rw [impl_mod0 sched buf start n (by omega)]
    exact portOf_write_words buf n sched start
  · rw [impl_mod1 sched buf start n (by omega)]
    simp only [portOf_append, portOf_waitReady, portOf_cons, portOf_nil, Event.isRead,
      if_true, Bool.false_eq_true, if_false, List.append_assoc]
    exact WellPolled_append (portOf_write_words buf n sched start)
      (WellPolled_wait_seg _ _ (by rfl) WellPolled.nil)
  · rw [impl_mod2 sched buf start n (by omega)]
    simp only [portOf_append, portOf_waitReady, portOf_cons, portOf_nil, Event.isRead,
      if_true, Bool.false_eq_true, if_false, List.append_assoc]
    exact WellPolled_append (portOf_write_words buf n sched start)
      (WellPolled_wait_seg _ _ (by rfl) WellPolled.nil)
  · rw [impl_mod3 sched buf start n (by omega)]
    simp only [portOf_append, portOf_waitReady, portOf_cons, portOf_nil, Event.isRead,
      if_true, Bool.false_eq_true, if_false, List.append_assoc]
    exact WellPolled_append (portOf_write_words buf n sched start)
      (WellPolled_wait_seg _ _ (by rfl) (WellPolled_wait_seg _ _ (by rfl) WellPolled.nil))

/-- C4: the port-visible trace of every run is a sequence of segments,
one per write, each consisting of the polls made for that write — `k`
polls observing not-ready followed by exactly one poll observing ready —
immediately followed by the write itself.  Thus the writer polls exactly
`k + 1` times before a write preceded by `k` not-ready reports, and
readiness is re-checked before every individual write. -/
theorem c4_polls_per_write (sched : List Bool) (addr : Nat) (buf : List Nat) :
    WellPolled (portOf (write_all sched addr buf).1) := by
  by_cases hl : buf.length = 0
  · rw [write_all_len0 sched addr buf hl]
    exact WellPolled.nil
  · have h4 : addr % 4 = 0 ∨ addr % 4 = 1 ∨ addr % 4 = 2 ∨ addr % 4 = 3 := by omega
    rcases h4 with h4 | h4 | h4 | h4
    · rw [write_all_aligned sched addr buf h4]
      exact portOf_impl sched buf 0
    · by_cases hl1 : buf.length = 1
      · rw [write_all_mod1_len1 sched addr buf h4 hl1]
        simp only [portOf_append, portOf_waitReady, portOf_cons, portOf_nil, Event.isRead,
          if_true, Bool.false_eq_true, if_false, List.append_assoc]
        exact WellPolled_wait_seg _ _ (by rfl) WellPolled.nil
      · by_cases hl2 : buf.length = 2
        · rw [write_all_mod1_len2 sched addr buf h4 hl2]
          simp only [portOf_append, portOf_waitReady, portOf_cons, portOf_nil,
            Event.isRead, if_true, Bool.false_eq_true, if_false, List.append_assoc]
          exact WellPolled_wait_seg _ _ (by rfl) (WellPolled_wait_seg _ _ (by rfl) WellPolled.nil)
        · rw [write_all_mod1_big sched addr buf h4 (by omega)]
          simp only [portOf_append, portOf_waitReady, portOf_cons, portOf_nil,
            Event.isRead, if_true, Bool.false_eq_true, if_false, List.append_assoc]
          exact WellPolled_wait_seg _ _ (by rfl)
            (WellPolled_wait_seg _ _ (by rfl) (portOf_impl _ buf 3))
    · by_cases hl1 : buf.length = 1
      · rw [write_all_mod2_len1 sched addr buf h4 hl1]
        simp only [portOf_append, portOf_waitReady, portOf_cons, portOf_nil, Event.isRead,
          if_true, Bool.false_eq_true, if_false, List.append_assoc]
        exact WellPolled_wait_seg _ _ (by rfl) WellPolled.nil
      · rw [write_all_mod2_big sched addr buf h4 (by omega)]
        simp only [portOf_append, portOf_waitReady, portOf_cons, portOf_nil, Event.isRead,
          if_true, Bool.false_eq_true, if_false, List.append_assoc]
        exact WellPolled_wait_seg _ _ (by rfl) (portOf_impl _ buf 2)
    · rw [write_all_mod3 sched addr buf h4 hl]
      simp only [portOf_append, portOf_waitReady, portOf_cons, portOf_nil, Event.isRead,
        if_true, Bool.false_eq_true, if_false, List.append_assoc]
      exact WellPolled_wait_seg _ _ (by rfl) (portOf_impl _ buf 1)

/- ### C8: the writer never reads outside the buffer -/

theorem readsOf_impl_lt (sched : List Bool) (buf : List Nat) (start : Nat) :
    ∀ i ∈ readsOf (write_aligned_impl sched buf start).1, i < buf.length := by
  obtain ⟨n, r, hr, hL⟩ : ∃ n r, r < 4 ∧ buf.length - start = 4 * n + r :=
    ⟨(buf.length - start) / 4, (buf.length - start) % 4, by omega, by omega⟩
  interval_cases r
  · rw [impl_mod0 sched buf start n (by omega)]
    by_cases hn : n = 0
    · subst hn
      intro i hi
      simp [write_words, readsOf] at hi
    · exact readsOf_write_words_lt buf n sched start (by omega)
  · rw [impl_mod1 sched buf start n (by omega)]
    intro i hi
    simp only [readsOf_append, readsOf_waitReady, readsOf_cons, readsOf_nil,
      List.mem_append, List.nil_append, List.append_nil, List.mem_singleton] at hi
    rcases hi with hi | hi
    · exact readsOf_write_words_lt buf n sched start (by omega) i hi
    · omega
  · rw [impl_mod2 sched buf start n (by omega)]
    intro i hi
    simp only [readsOf_append, readsOf_waitReady, readsOf_cons, readsOf_nil,
      List.mem_append, List.nil_append, List.append_nil, List.mem_singleton,
      List.mem_cons, List.not_mem_nil, or_false] at hi
    rcases hi with hi | hi | hi
    · exact readsOf_write_words_lt buf n sched start (by omega) i hi
    · omega
    · omega
  · rw [impl_mod3 sched buf start n (by omega)]
    intro i hi
    simp only [readsOf_append, readsOf_waitReady, readsOf_cons, readsOf_nil,
      List.mem_append, List.nil_append, List.append_nil, List.mem_singleton,
      List.mem_cons, List.not_mem_nil, or_false] at hi
    rcases hi with hi | hi
    · exact readsOf_write_words_lt buf n sched start (by omega) i hi
    · omega

/-- C8: every byte offset the writer reads — through plain byte reads,
2-byte `u16` reads and 4-byte word reads — is strictly below the buffer
length: the writer never reads outside `[base, base + N)`. -/
theorem c8_reads_in_bounds (sched : List Bool) (addr : Nat) (buf : List Nat) :
    ∀ i ∈ readsOf (write_all sched addr buf).1, i < buf.length := by
  by_cases hl : buf.length = 0
  · rw [write_all_len0 sched addr buf hl]
    intro i hi
    simp [readsOf] at hi
  · have h4 : addr % 4 = 0 ∨ addr % 4 = 1 ∨ addr % 4 = 2 ∨ addr % 4 = 3 := by omega
    rcases h4 with h4 | h4 | h4 | h4
    · rw [write_all_aligned sched addr buf h4]
      exact readsOf_impl_lt sched buf 0
    · by_cases hl1 : buf.length = 1
      · rw [write_all_mod1_len1 sched addr buf h4 hl1]
        intro i hi
        simp only [readsOf_append, readsOf_waitReady, readsOf_cons, readsOf_nil,
          List.mem_append, List.nil_append, List.append_nil, List.mem_singleton,
          List.mem_cons, List.not_mem_nil, or_false] at hi
        omega
      · by_cases hl2 : buf.length = 2
        · rw [write_all_mod1_len2 sched addr buf h4 hl2]
          intro i hi
          simp only [readsOf_append, readsOf_waitReady, readsOf_cons, readsOf_nil,
            List.mem_append, List.nil_append, List.append_nil, List.mem_singleton,
            List.mem_cons, List.not_mem_nil, or_false] at hi
          omega
        · rw [write_all_mod1_big sched addr buf h4 (by omega)]
          intro i hi
          simp only [readsOf_append, readsOf_waitReady, readsOf_cons, readsOf_nil,
            List.mem_append, List.nil_append, List.append_nil, List.mem_singleton,
            List.mem_cons, List.not_mem_nil, or_false] at hi
          rcases hi with hi | hi | hi | hi
          · omega
          · omega
          · omega
          · exact readsOf_impl_lt _ buf 3 i hi
    · by_cases hl1 : buf.length = 1
      · rw [write_all_mod2_len1 sched addr buf h4 hl1]
        intro i hi
        simp only [readsOf_append, readsOf_waitReady, readsOf_cons, readsOf_nil,
          List.mem_append, List.nil_append, List.append_nil, List.mem_singleton,
          List.mem_cons, List.not_mem_nil, or_false] at hi
        omega
      · rw [write_all_mod2_big sched addr buf h4 (by omega)]
        intro i hi
        simp only [readsOf_append, readsOf_waitReady, readsOf_cons, readsOf_nil,
          List.mem_append, List.nil_append, List.append_nil, List.mem_singleton,
          List.mem_cons, List.not_mem_nil, or_false] at hi
        rcases hi with hi | hi | hi
        · omega
        · omega
        · exact readsOf_impl_lt _ buf 2 i hi
    · rw [write_all_mod3 sched addr buf h4 hl]
      intro i hi
      simp only [readsOf_append, readsOf_waitReady, readsOf_cons, readsOf_nil,
        List.mem_append, List.nil_append, List.append_nil, List.mem_singleton,
        List.mem_cons, List.not_mem_nil, or_false] at hi
      rcases hi with hi | hi
      · omega
      · exact readsOf_impl_lt _ buf 1 i hi

theorem c8_reads_in_bounds_witness :
    (0 : Nat) ∈ readsOf (write_all [] 2 [5, 6, 7]).1 ∧
      (0 : Nat) < ([5, 6, 7] : List Nat).length :=
  ⟨by decide, c8_reads_in_bounds [] 2 [5, 6, 7] 0 (by decide)⟩

/- ### C9: little-endian packing at the correct offsets -/

theorem offAt_zero (ws : List Event) : offAt ws 0 = 0 := rfl

theorem offAt_cons_succ (e : Event) (ws : List Event) (k : Nat) :
    offAt (e :: ws) (k + 1) = e.width + offAt ws k := by
  simp [offAt, List.take_succ_cons]

theorem LEAt_nil (buf : List Nat) (base : Nat) : LEAt buf base [] := by
  intro k h
  simp at h

theorem LEAt_cons {buf : List Nat} {base : Nat} {e : Event} {ws : List Event}
    (h8 : ∀ v, e = Event.w8 v → v = buf.getD base 0)
    (h16 : ∀ v, e = Event.w16 v →
      v = buf.getD base 0 + 256 * buf.getD (base + 1) 0)
    (h32 : ∀ v, e = Event.w32 v →
      v = buf.getD base 0 + 256 * buf.getD (base + 1) 0 +
        65536 * buf.getD (base + 2) 0 + 16777216 * buf.getD (base + 3) 0)
    (hrest : LEAt buf (base + e.width) ws) :
    LEAt buf base (e :: ws) := by
  intro k h
  cases k with
  | zero =>
    refine ⟨fun v hv => ?_, fun v hv => ?_, fun v hv => ?_⟩ <;>
      simp only [offAt_zero, Nat.add_zero]
    · exact h8 v hv
    · exact h16 v hv
    · exact h32 v hv
  | succ k =>
    have hlen : k < ws.length := by simpa using h
    obtain ⟨g8, g16, g32⟩ := hrest k hlen
    have ea : base + (e.width + offAt ws k) = base + e.width + offAt ws k := by ring
    refine ⟨fun v hv => ?_, fun v hv => ?_, fun v hv => ?_⟩ <;>
      rw [offAt_cons_succ, ea]
    · exact g8 v hv
    · exact g16 v hv
    · exact g32 v hv

theorem LEAt_tail {buf : List Nat} {base : Nat} {e : Event} {ws : List Event}
    (h : LEAt buf base (e :: ws)) : LEAt buf (base + e.width) ws := by
  intro k hk
  obtain ⟨g8, g16, g32⟩ := h (k + 1) (by simpa using hk)
  have ea : base + (e.width + offAt ws k) = base + e.width + offAt ws k := by ring
  rw [offAt_cons_succ, ea] at g8 g16 g32
  exact ⟨g8, g16, g32⟩

theorem LEAt_append {buf : List Nat} :
    ∀ (A : List Event) (base : Nat) (B : List Event), LEAt buf base A →
      LEAt buf (base + (A.map Event.width).sum) B → LEAt buf base (A ++ B) := by
  intro A
  induction A with
  | nil =>
    intro base B _ hB
    simpa using hB
  | cons e A ih =>
    intro base B hA hB
    rw [List.cons_append]
    have hB' : LEAt buf (base + e.width + (A.map Event.width).sum) B := by
      have es : base + ((e :: A).map Event.width).sum =
          base + e.width + (A.map Event.width).sum := by
        simp [List.sum_cons]
        ring
      rwa [es] at hB
    obtain ⟨g8, g16, g32⟩ := hA 0 (by simp)
    exact LEAt_cons g8 g16 g32 (ih (base + e.width) B (LEAt_tail hA) hB')

theorem LEAt_words (buf : List Nat) :
    ∀ (n : Nat) (p : Nat),
      LEAt buf p ((List.range n).map (fun j => Event.w32 (read_u32 buf (p + 4 * j)).2)) := by
  intro n
  induction n with
  | zero => intro p; exact LEAt_nil buf p
  | succ n ih =>
    intro p
    rw [List.range_succ_eq_map, List.map_cons, List.map_map]
    apply LEAt_cons
    · intro v hv
      simp at hv
    · intro v hv
      simp at hv
    · intro v hv
      injection hv with hveq
      rw [← hveq]
      simp [read_u32]
    · have efun : ((fun j => Event.w32 (read_u32 buf (p + 4 * j)).2) ∘ Nat.succ) =
          (fun j => Event.w32 (read_u32 buf (p + 4 + 4 * j)).2) := by
        funext j
        simp only [Function.comp]
        rw [show p + 4 * Nat.succ j = p + 4 + 4 * j from by omega]
      simp only [Event.width]
      rw [efun]
      exact ih (p + 4)

theorem width_sum_words (buf : List Nat) (p n : Nat) :
    (((List.range n).map (fun j => Event.w32 (read_u32 buf (p + 4 * j)).2)).map
      Event.width).sum = 4 * n := by
  rw [List.map_map]
  have e : (Event.width ∘ fun j => Event.w32 (read_u32 buf (p + 4 * j)).2) =
      (fun _ => (4 : Nat)) := by
    funext j
    rfl
  rw [e]
  simp [List.map_const', List.sum_replicate, smul_eq_mul]
  ring

theorem LEAt_impl (sched : List Bool) (buf : List Nat) (start : Nat) :
    LEAt buf start (writesOf (write_aligned_impl sched buf start).1) := by
  obtain ⟨n, r, hr, hL⟩ : ∃ n r, r < 4 ∧ buf.length - start = 4 * n + r :=
    ⟨(buf.length - start) / 4, (buf.length - start) % 4, by omega, by omega⟩
  interval_cases r
  · rw [writesOf_impl_mod0 sched buf start n (by omega)]
    exact LEAt_words buf n start
  · rw [writesOf_impl_mod1 sched buf start n (by omega)]
    refine LEAt_append _ _ _ (LEAt_words buf n start) ?_
    rw [width_sum_words buf start n]
    refine LEAt_cons ?_ ?_ ?_ (LEAt_nil buf _)
    · intro v hv
      injection hv with hveq
      exact hveq.symm
    · intro v hv
      simp at hv
    · intro v hv
      simp at hv
  · rw [writesOf_impl_mod2 sched buf start n (by omega)]
    refine LEAt_append _ _ _ (LEAt_words buf n start) ?_
    rw [width_sum_words buf start n]
    refine LEAt_cons ?_ ?_ ?_ (LEAt_nil buf _)
    · intro v hv
      simp at hv
    · intro v hv
      injection hv with hveq
      exact hveq.symm
    · intro v hv
      simp at hv
  · rw [writesOf_impl_mod3 sched buf start n (by omega)]
    refine LEAt_append _ _ _ (LEAt_words buf n start) ?_
    rw [width_sum_words buf start n]
    refine LEAt_cons ?_ ?_ ?_ ?_
    · intro v hv
      simp at hv
    · intro v hv
      injection hv with hveq
      exact hveq.symm
    · intro v hv
      simp at hv
    · simp only [Event.width]
      refine LEAt_cons ?_ ?_ ?_ (LEAt_nil buf _)
      · intro v hv
        injection hv with hveq
        rw [← hveq]
      · intro v hv
        simp at hv
      · intro v hv
        simp at hv

/-- C9: every emitted write packs its covered bytes little-endian at the
correct position: the `k`-th write in the sequence, whose payload starts
at the byte offset equal to the total width of the preceding writes,
carries `b i` for an 8-bit write, `b i + 256·b (i+1)` for a 16-bit write,
and `b i + 256·b (i+1) + 65536·b (i+2) + 16777216·b (i+3)` for a 32-bit
write, where `b` indexes the buffer and `i` is that offset. -/
theorem c9_little_endian_packing (sched : List Bool) (addr : Nat) (buf : List Nat) :
    LEAt buf 0 (writesOf (write_all sched addr buf).1) := by
  by_cases hl : buf.length = 0
  · rw [write_all_len0 sched addr buf hl]
    exact LEAt_nil buf 0
  · have h4 : addr % 4 = 0 ∨ addr % 4 = 1 ∨ addr % 4 = 2 ∨ addr % 4 = 3 := by omega
    rcases h4 with h4 | h4 | h4 | h4
    · rw [write_all_aligned sched addr buf h4]
      exact LEAt_impl sched buf 0
    · by_cases hl1 : buf.length = 1
      · rw [writesOf_all_1len1 sched addr buf h4 hl1]
        refine LEAt_cons ?_ ?_ ?_ (LEAt_nil buf _)
        · intro v hv
          injection hv with hveq
          exact hveq.symm
        · intro v hv
          simp at hv
        · intro v hv
          simp at hv
      · by_cases hl2 : buf.length = 2
        · rw [writesOf_all_1len2 sched addr buf h4 hl2]
          refine LEAt_cons ?_ ?_ ?_ ?_
          · intro v hv
            injection hv with hveq
            exact hveq.symm
          · intro v hv
            simp at hv
          · intro v hv
            simp at hv
          · norm_num [Event.width]
            refine LEAt_cons ?_ ?_ ?_ (LEAt_nil buf _)
            · intro v hv
              injection hv with hveq
              rw [← hveq]
              norm_num
            · intro v hv
              simp at hv
            · intro v hv
              simp at hv
        · rw [writesOf_all_1big sched addr buf h4 (by omega)]
          refine LEAt_cons ?_ ?_ ?_ ?_
          · intro v hv
            injection hv with hveq
            exact hveq.symm
          · intro v hv
            simp at hv
          · intro v hv
            simp at hv
          · norm_num [Event.width]
            refine LEAt_cons ?_ ?_ ?_ ?_
            · intro v hv
              simp at hv
            · intro v hv
              injection hv with hveq
              rw [← hveq]
              norm_num
            · intro v hv
              simp at hv
            · norm_num [Event.width]
              exact LEAt_impl _ buf 3
    · by_cases hl1 : buf.length = 1
      · rw [writesOf_all_2len1 sched addr buf h4 hl1]
        refine LEAt_cons ?_ ?_ ?_ (LEAt_nil buf _)
        · intro v hv
          injection hv with hveq
          exact hveq.symm
        · intro v hv
          simp at hv
        · intro v hv
          simp at hv
      · rw [writesOf_all_2big sched addr buf h4 (by omega)]
        refine LEAt_cons ?_ ?_ ?_ ?_
        · intro v hv
          simp at hv
        · intro v hv
          injection hv with hveq
          rw [← hveq]
        · intro v hv
          simp at hv
        · norm_num [Event.width]
          exact LEAt_impl _ buf 2
    · rw [writesOf_all_3 sched addr buf h4 hl]
      refine LEAt_cons ?_ ?_ ?_ ?_
      · intro v hv
        injection hv with hveq
        exact hveq.symm
      · intro v hv
        simp at hv
      · intro v hv
        simp at hv
      · norm_num [Event.width]
        exact LEAt_impl _ buf 1

theorem c9_little_endian_packing_witness :
    LEAt [10, 20, 30] 0 (writesOf (write_all [false] 1 [10, 20, 30]).1) :=
  c9_little_endian_packing [false] 1 [10, 20, 30]
